import Mathlib

/-!
Verification of the LibCST codemod core: the `convert_format_to_fstring`
command (legacy `str.format` to f-string rewriter) and the
`AddImportsVisitor` import planner, shallowly embedded from
`libcst/codemod/commands/convert_format_to_fstring.py` and
`libcst/codemod/visitors/_add_imports.py`.

Raw program text is modelled as `List Char`.  External collaborators
(the libcst parser, renderer and the `GatherImportsVisitor`) are modelled
from the specification and are marked as such in their doc comments.
-/

namespace LibCST

abbrev Chars := List Char

/-! ### Field-spec splitter: `_get_field` -/

/-- Scan for the first colon at bracket depth 0 relative to square
brackets, mirroring the loop in `_get_field`.  Returns the parts before
and after that colon, or `none` when no such colon exists.  The depth
counter is an `Int` because the source decrements on every closing
bracket without a floor. -/
def splitColon : List Char → Int → Option (Chars × Chars)
  | [], _ => none
  | c :: cs, d =>
    if c = '[' then (splitColon cs (d + 1)).map (fun p => (c :: p.1, p.2))
    else if c = ']' then (splitColon cs (d - 1)).map (fun p => (c :: p.1, p.2))
    else if c = ':' ∧ d = 0 then some ([], cs)
    else (splitColon cs d).map (fun p => (c :: p.1, p.2))

/-- Split at the first occurrence of `t`, like Python `s.split(t, 1)`
when `t` occurs; `none` when it does not. -/
def splitFirst (t : Char) : List Char → Option (Chars × Chars)
  | [] => none
  | c :: cs =>
    if c = t then some ([], cs)
    else (splitFirst t cs).map (fun p => (c :: p.1, p.2))

/-- `_get_field`: split raw field text into field name, optional format
spec (after the first depth-0 colon) and optional conversion (after the
first bang in the part before the colon). -/
def getField (x : Chars) : Chars × Option Chars × Option Chars :=
  match splitColon x 0 with
  | some q =>
    match splitFirst '!' q.1 with
    | some r => (r.1, some q.2, some r.2)
    | none => (q.1, some q.2, none)
  | none =>
    match splitFirst '!' x with
    | some r => (r.1, none, some r.2)
    | none => (x, none, none)

theorem splitColon_recon (x : Chars) (d : Int) (a b : Chars)
    (h : splitColon x d = some (a, b)) : a ++ ':' :: b = x := by
  induction x generalizing d a b with
  | nil => simp [splitColon] at h
  | cons c cs ih =>
    simp only [splitColon] at h
    split at h
    · rw [Option.map_eq_some'] at h
      obtain ⟨p, hp, he⟩ := h
      injection he with h1 h2
      subst h1; subst h2
      simp only [List.cons_append, List.cons.injEq, true_and]
      exact ih (d + 1) p.1 p.2 hp
    · split at h
      · rw [Option.map_eq_some'] at h
        obtain ⟨p, hp, he⟩ := h
        injection he with h1 h2
        subst h1; subst h2
        simp only [List.cons_append, List.cons.injEq, true_and]
        exact ih (d - 1) p.1 p.2 hp
      · split at h
        · rename_i hc
          injection h with h1
          injection h1 with ha hb
          subst ha; subst hb
          simp [hc.1]
        · rw [Option.map_eq_some'] at h
          obtain ⟨p, hp, he⟩ := h
          injection he with h1 h2
          subst h1; subst h2
          simp only [List.cons_append, List.cons.injEq, true_and]
          exact ih d p.1 p.2 hp

theorem splitFirst_recon (t : Char) (x : Chars) (a b : Chars)
    (h : splitFirst t x = some (a, b)) : a ++ t :: b = x := by
  induction x generalizing a b with
  | nil => simp [splitFirst] at h
  | cons c cs ih =>
    simp only [splitFirst] at h
    split at h
    · rename_i hc
      injection h with h1
      injection h1 with ha hb
      subst ha; subst hb
      simp [hc]
    · rw [Option.map_eq_some'] at h
      obtain ⟨p, hp, he⟩ := h
      injection he with h1 h2
      subst h1; subst h2
      simp only [List.cons_append, List.cons.injEq, true_and]
      exact ih p.1 p.2 hp

/-- Reassemble the three components of a split field in the order the
claim states: name, then bang plus conversion, then colon plus spec. -/
def fieldRecon (name : Chars) (spec conv : Option Chars) : Chars :=
  name ++ (match conv with | some c => '!' :: c | none => []) ++
    (match spec with | some s => ':' :: s | none => [])

theorem getField_recon (x : Chars) :
    fieldRecon (getField x).1 (getField x).2.1 (getField x).2.2 = x := by
  rcases q1 : splitColon x 0 with _ | p1
  · rcases q2 : splitFirst '!' x with _ | p2
    · simp [getField, fieldRecon, q1, q2]
    · have h2 := splitFirst_recon '!' x p2.1 p2.2 q2
      simp only [getField, fieldRecon, q1, q2]
      simpa using h2
  · have h1 := splitColon_recon x 0 p1.1 p1.2 q1
    rcases q2 : splitFirst '!' p1.1 with _ | p2
    · simp only [getField, fieldRecon, q1, q2]
      simpa using h1
    · have h2 := splitFirst_recon '!' p1.1 p2.1 p2.2 q2
      simp only [getField, fieldRecon, q1, q2]
      rw [← h1, ← h2]

/-! ### Escape-aware brace tokenizer: `_get_tokens` -/

/-- One token yielded by `_get_tokens`: literal text, then optional
field name, format spec and conversion. -/
abbrev Tok := Chars × Option Chars × Option Chars × Option Chars

/-- The loop of `_get_tokens`, with the loop state made explicit:
the literal accumulator (`lit`), the field-text accumulator (`accum`),
the bracket depth and the escape flag.  The source decrements the depth
and errors when it would go below zero; here the depth is a `Nat` and a
closing bracket at depth zero is the stray-bracket error.  The generator
is materialised into a list of tokens. -/
def getTokensAux : List Char → Chars → Chars → Nat → Bool → Except String (List Tok)
  | [], lit, accum, depth, _ =>
    if depth > 0 then .error "Stray open bracket in format string!"
    else if accum ≠ [] then .error "Logic error!"
    else .ok [(lit, none, none, none)]
  | c :: cs, lit, accum, depth, esc =>
    if esc then
      -- the previous character opened an escape pair: consume this one too
      if depth = 0 then getTokensAux cs (lit ++ [c]) accum depth false
      else getTokensAux cs lit (accum ++ [c]) depth false
    else
      -- an escape pair can only start outside of any field
      if depth = 0 ∧ ((c = '{' ∧ cs.head? = some '{') ∨ (c = '}' ∧ cs.head? = some '}')) then
        getTokensAux cs (lit ++ [c]) accum depth true
      else if c = '{' then
        -- the outermost open bracket starts a field and is not accumulated
        if depth = 0 then getTokensAux cs lit accum 1 false
        else getTokensAux cs lit (accum ++ [c]) (depth + 1) false
      else if c = '}' then
        if depth = 0 then .error "Stray close bracket in format string!"
        else if depth = 1 then
          -- depth transition 1 -> 0: yield a completed token
          match getTokensAux cs [] [] 0 false with
          | .error e => .error e
          | .ok toks =>
            .ok ((lit, some (getField accum).1, (getField accum).2.1, (getField accum).2.2) :: toks)
        else getTokensAux cs lit (accum ++ [c]) (depth - 1) false
      else
        if depth = 0 then getTokensAux cs (lit ++ [c]) accum depth false
        else getTokensAux cs lit (accum ++ [c]) depth false

/-- `_get_tokens` on a whole string: initial state has empty
accumulators, depth zero and no pending escape. -/
def getTokens (s : Chars) : Except String (List Tok) :=
  getTokensAux s [] [] 0 false

/-- Reconstruction of one token, exactly as the claim words it: the
literal text, then — when a field is present — the field surrounded by
one pair of braces, the field being name, bang-conversion, colon-spec. -/
def tokRecon : Tok → Chars
  | (lit, none, _, _) => lit
  | (lit, some name, spec, conv) => lit ++ '{' :: (fieldRecon name spec conv ++ ['}'])

/-- Concatenation of the reconstructions of all tokens. -/
def toksRecon (toks : List Tok) : Chars :=
  toks.foldr (fun t acc => tokRecon t ++ acc) []

theorem toksRecon_cons (t : Tok) (ts : List Tok) :
    toksRecon (t :: ts) = tokRecon t ++ toksRecon ts := rfl

/-- Invariant of the tokenizer loop: a successful run from any state
reconstructs the pending literal accumulator, the still-open field (if
the depth is positive) and the remaining input. -/
theorem getTokensAux_recon (cs : List Char) :
    ∀ (lit accum : Chars) (depth : Nat) (esc : Bool) (toks : List Tok),
    (depth = 0 → accum = []) →
    getTokensAux cs lit accum depth esc = .ok toks →
    toksRecon toks = lit ++ (if depth = 0 then [] else '{' :: accum) ++ cs := by
  induction cs with
  | nil =>
    intro lit accum depth esc toks hinv h
    simp only [getTokensAux] at h
    split at h
    · exact absurd h (by simp)
    · split at h
      · exact absurd h (by simp)
      · rename_i hd _
        have hd0 : depth = 0 := by omega
        injection h with h1
        subst h1
        simp [toksRecon, tokRecon, hd0]
  | cons c cs ih =>
    intro lit accum depth esc toks hinv h
    simp only [getTokensAux] at h
    split at h
    · -- escape consumption step
      split at h
      · rename_i hd0
        have := ih (lit ++ [c]) accum depth false toks hinv h
        simpa [hd0] using this
      · rename_i hd0
        have hne : ¬depth = 0 := hd0
        have := ih lit (accum ++ [c]) depth false toks (fun q => absurd q hne) h
        simp only [this, if_neg hne]
        simp
    · split at h
      · -- escape pair begins here: current character goes to the literal
        rename_i hesc
        have hd0 : depth = 0 := hesc.1
        have := ih (lit ++ [c]) accum depth true toks hinv h
        simpa [hd0] using this
      · split at h
        · -- open bracket
          rename_i hc
          subst hc
          split at h
          · rename_i hd0
            have := ih lit accum 1 false toks (by simp) h
            rw [this, hinv hd0]
            simp [hd0]
          · rename_i hd0
            have hne : ¬depth = 0 := hd0
            have := ih lit (accum ++ ['{']) (depth + 1) false toks (by simp) h
            simp only [this, if_neg hne]
            simp
        · split at h
          · -- close bracket
            rename_i hc
            subst hc
            split at h
            · exact absurd h (by simp)
            · split at h
              · -- depth 1 -> 0 : a token is yielded
                rename_i hd0 hd1
                split at h
                · exact absurd h (by simp)
                · rename_i toks' htoks'
                  injection h with h1
                  subst h1
                  have hrest := ih [] [] 0 false toks' (by simp) htoks'
                  rw [toksRecon_cons, hrest]
                  simp only [tokRecon]
                  have hfr := getField_recon accum
                  simp only [if_neg hd0, hd1]
                  rw [hfr]
                  simp
              · rename_i hd0 hd1
                have hge : depth ≥ 2 := by omega
                have := ih lit (accum ++ ['}']) (depth - 1) false toks (by omega) h
                rw [this]
                have : ¬(depth - 1 = 0) := by omega
                simp only [if_neg this, if_neg hd0]
                simp
          · -- ordinary character
            split at h
            · rename_i hd0
              have := ih (lit ++ [c]) accum depth false toks hinv h
              simpa [hd0] using this
            · rename_i hd0
              have hne : ¬depth = 0 := hd0
              have := ih lit (accum ++ [c]) depth false toks (fun q => absurd q hne) h
              simp only [this, if_neg hne]
              simp

/-- C2: For every input with balanced braces — that is, every input on
which `_get_tokens` raises no error — concatenating, over the produced
token sequence in order, each token's literal text followed by a braced
reconstruction of its field (name, bang-conversion, colon-spec) yields
exactly the original input string. -/
theorem getTokens_roundtrip (s : Chars) (toks : List Tok)
    (h : getTokens s = .ok toks) : toksRecon toks = s := by
  have := getTokensAux_recon s [] [] 0 false toks (by simp) h
  simpa using this

/-- Witness for C2 on a concrete input containing a literal prefix, an
escaped brace pair, and a field with conversion and format spec: the
input reads ab, two escaped open braces, then a braced field x bang r
colon d, then c. -/
theorem getTokens_roundtrip_witness :
    toksRecon [(['a', 'b', '{', '{'], some ['x'], some ['d'], some ['r']),
               (['c'], none, none, none)] =
      ['a', 'b', '{', '{', '{', 'x', '!', 'r', ':', 'd', '}', 'c'] := by
  apply getTokens_roundtrip
  rfl

/-! ### `_string_prefix_and_quotes` -/

def isQuoteCh (c : Char) : Bool := c = '\'' ∨ c = '"'

/-- The characters before the first quote character (the string prefix
letters).  When no quote character occurs this is the whole string,
matching the source, whose scan then finds an empty quote run. -/
def strPrefix (s : Chars) : Chars := s.takeWhile (fun c => ¬ isQuoteCh c)

/-- The detected leading quote run: the maximal run of copies of the
first quote character, starting at the first quote character.  This is
the value of `quote` after the second loop of
`_string_prefix_and_quotes`. -/
def quoteRun (s : Chars) : Chars :=
  match s.drop (strPrefix s).length with
  | [] => []
  | q :: rest => q :: rest.takeWhile (fun c => c = q)

/-- The length-2 and length-6 runs are coerced ("Lets assume this is an
empty string"): take one, respectively three, of the quote characters. -/
def coerceQuote (run : Chars) : Chars :=
  if run.length = 2 then run.take 1
  else if run.length = 6 then run.take 3
  else run

/-- The inner text of the literal: Python `string[(len(prefix) +
len(quote)) : -len(quote)]`, modelled by dropping the head and then
keeping all but the last `len(quote)` characters. -/
def sliceInnards (s : Chars) : Chars :=
  (s.drop ((strPrefix s).length + (coerceQuote (quoteRun s)).length)).take
    ((s.drop ((strPrefix s).length + (coerceQuote (quoteRun s)).length)).length -
      (coerceQuote (quoteRun s)).length)

/-- `_string_prefix_and_quotes`: decompose a raw string literal into
prefix, quote marker and inner text, or raise for an invalid quote run. -/
def stringPrefixAndQuotes (s : Chars) : Except String (Chars × Chars × Chars) :=
  if (coerceQuote (quoteRun s)).length = 1 ∨ (coerceQuote (quoteRun s)).length = 3 then
    .ok (strPrefix s, coerceQuote (quoteRun s), sliceInnards s)
  else .error "Invalid string!"

theorem coerceQuote_length (run : Chars) :
    (coerceQuote run).length =
      if run.length = 2 then 1 else if run.length = 6 then 3 else run.length := by
  unfold coerceQuote
  split
  · rename_i h; simp [List.length_take, h]
  · split
    · rename_i h; simp [List.length_take, h]
    · simp_all

/-- C9 (amended): `_string_prefix_and_quotes` raises exactly when the
detected leading quote run has a length other than 1, 2, 3 or 6; runs of
length 2 and 6 are silently coerced to 1 and 3 rather than raising. -/
theorem stringPrefixAndQuotes_error_iff (s : Chars) :
    (∃ e, stringPrefixAndQuotes s = .error e) ↔
      ¬((quoteRun s).length = 1 ∨ (quoteRun s).length = 2 ∨
        (quoteRun s).length = 3 ∨ (quoteRun s).length = 6) := by
  have hlen := coerceQuote_length (quoteRun s)
  unfold stringPrefixAndQuotes
  split
  · rename_i hq
    simp only [reduceCtorEq, exists_false, false_iff, not_not]
    split at hlen <;> first | omega | (split at hlen <;> omega)
  · rename_i hq
    simp only [Except.error.injEq, exists_eq', true_iff]
    intro hcon
    apply hq
    split at hlen <;> first | omega | (split at hlen <;> omega)

/-- C9 counterexample input: the empty single-quoted string literal has
a detected quote run of length 2 — not 1 or 3 — yet the decomposition
succeeds (as the empty string) instead of raising. -/
theorem stringPrefixAndQuotes_len2_ok :
    stringPrefixAndQuotes ['\'', '\''] = .ok ([], ['\''], []) ∧
      (quoteRun ['\'', '\'']).length = 2 := by
  constructor
  · rfl
  · rfl

/-! ### `ast.literal_eval` (external), modelled -/

/-- Modelled from the spec: the escape processing inside the external
`ast.literal_eval` ("re-parsing ... to a value").  Standard short escape
sequences are resolved; an unknown escape keeps its backslash; a bare
occurrence of the terminating quote character is a parse failure. -/
def escMap (c : Char) : Chars :=
  if c = 'n' then ['\n']
  else if c = 't' then ['\t']
  else if c = '\\' then ['\\']
  else if c = '\'' then ['\'']
  else if c = '"' then ['"']
  else ['\\', c]

def unescape (qc : Char) : List Char → Option Chars
  | [] => some []
  | c :: rest =>
    if c = '\\' then
      match rest with
      | [] => none
      | e :: rest' => (unescape qc rest').map (fun r => escMap e ++ r)
    else if c = qc then none
    else (unescape qc rest).map (fun r => c :: r)

/-- Modelled from the spec: the external `ast.literal_eval`, restricted
to a single plain (unprefixed) string literal.  Returns the evaluated
string value, or `none` when the text does not parse as a string
literal. -/
def literalEval (value : Chars) : Option Chars :=
  match stringPrefixAndQuotes value with
  | .error _ => none
  | .ok (pfx, quote, innards) =>
    if pfx ≠ [] then none
    else if value.length < 2 * quote.length then none
    else if value.drop (value.length - quote.length) ≠ quote then none
    else unescape (quote.headD ' ') innards

/-! ### `SwitchStringQuotesTransformer.leave_SimpleString` -/

/-- The transformer's opposite quote character (`self.replace_quote`). -/
def replaceQuoteCh (avoid : Char) : Char := if avoid = '\'' then '"' else '\''

/-- The swapped literal text built by `leave_SimpleString`:
`f"{prefix}{new_quote}{innards}{new_quote}"` with `new_quote` the quote
marker with the avoided character replaced throughout. -/
def swappedValue (avoid : Char) (pfx quote innards : Chars) : Chars :=
  pfx ++ quote.map (fun c => if c = avoid then replaceQuoteCh avoid else c) ++ innards ++
    quote.map (fun c => if c = avoid then replaceQuoteCh avoid else c)

/-- `leave_SimpleString`: given the quote character to avoid, swap the
quotes of one string literal when the swapped literal evaluates to the
identical value; leave the literal unchanged in every other case.  A
failure of `_string_prefix_and_quotes` propagates (the transformer does
not catch it). -/
def leaveSimpleString (avoid : Char) (value : Chars) : Except String Chars :=
  match stringPrefixAndQuotes value with
  | .error e => .error e
  | .ok (pfx, quote, innards) =>
    if avoid ∈ quote then
      match literalEval value, literalEval (swappedValue avoid pfx quote innards) with
      | some oldStr, some newStr =>
        if oldStr = newStr then .ok (swappedValue avoid pfx quote innards) else .ok value
      | _, _ => .ok value
    else .ok value

/-- C5: for a string literal whose quote matches the quote to avoid, the
quote-swap pass returns the swapped literal exactly when evaluating both
the original and the swapped text succeeds and yields identical values;
in every other case (differing values, either evaluation failing, or a
non-matching quote) the literal is returned unchanged. -/
theorem leaveSimpleString_spec (avoid : Char) (value pfx quote innards : Chars)
    (hpq : stringPrefixAndQuotes value = .ok (pfx, quote, innards)) :
    (∀ a b, avoid ∈ quote → literalEval value = some a →
      literalEval (swappedValue avoid pfx quote innards) = some b →
      leaveSimpleString avoid value =
        .ok (if a = b then swappedValue avoid pfx quote innards else value)) ∧
    (avoid ∈ quote → (literalEval value = none ∨
      literalEval (swappedValue avoid pfx quote innards) = none) →
      leaveSimpleString avoid value = .ok value) ∧
    (avoid ∉ quote → leaveSimpleString avoid value = .ok value) := by
  refine ⟨?_, ?_, ?_⟩
  · intro a b hmem ha hb
    simp only [leaveSimpleString, hpq, if_pos hmem, ha, hb]
    split <;> simp_all
  · intro hmem hnone
    simp only [leaveSimpleString, hpq, if_pos hmem]
    rcases hnone with hn | hn
    · rw [hn]
    · rw [hn]
      cases literalEval value <;> rfl
  · intro hmem
    simp only [leaveSimpleString, hpq, if_neg hmem]

/-! ### Expression model

A small model of the libcst expression nodes that the rewriter inspects:
names, integers, string literals, attribute and subscript chains, await
expressions, formatted strings, one layer of parentheses (`lpar`/`rpar`)
and leading trivia (whitespace or comments attached to a node). -/

inductive Trivia
  | space
  | parenNl
  | comm
  deriving DecidableEq

inductive Expr
  | name (v : Chars)
  | intLit (v : Chars)
  | str (value : Chars)
  | attr (e : Expr) (field : Chars)
  | sub (e : Expr) (index : Expr)
  | awaitE (e : Expr)
  | fstr (text : Chars)
  | parens (e : Expr)
  | ws (t : Trivia) (e : Expr)
  deriving DecidableEq

/-- One call argument: `star` is the spread marker text (empty, one or
two stars), `keyword` the optional keyword name, `value` the argument
expression. -/
structure Arg where
  star : Chars
  keyword : Option Chars
  value : Expr
  deriving DecidableEq

/-- `self.findall(expr, m.Comment())` is nonempty: some sub-node carries
comment trivia. -/
def hasComment : Expr → Bool
  | .name _ => false
  | .intLit _ => false
  | .str _ => false
  | .attr e _ => hasComment e
  | .sub e i => hasComment e || hasComment i
  | .awaitE e => hasComment e
  | .fstr _ => false
  | .parens e => hasComment e
  | .ws t e => t = Trivia.comm || hasComment e

/-- `self.findall(expr, m.FormattedString())` is nonempty. -/
def hasFStr : Expr → Bool
  | .name _ => false
  | .intLit _ => false
  | .str _ => false
  | .attr e _ => hasFStr e
  | .sub e i => hasFStr e || hasFStr i
  | .awaitE e => hasFStr e
  | .fstr _ => true
  | .parens e => hasFStr e
  | .ws _ e => hasFStr e

/-- `self.findall(expr, m.Await())` is nonempty. -/
def hasAwait : Expr → Bool
  | .name _ => false
  | .intLit _ => false
  | .str _ => false
  | .attr e _ => hasAwait e
  | .sub e i => hasAwait e || hasAwait i
  | .awaitE _ => true
  | .fstr _ => false
  | .parens e => hasAwait e
  | .ws _ e => hasAwait e

/-- `StripNewlinesTransformer`: every parenthesized-whitespace trivia
becomes a single plain space. -/
def stripNewlines : Expr → Expr
  | .name v => .name v
  | .intLit v => .intLit v
  | .str v => .str v
  | .attr e f => .attr (stripNewlines e) f
  | .sub e i => .sub (stripNewlines e) (stripNewlines i)
  | .awaitE e => .awaitE (stripNewlines e)
  | .fstr v => .fstr v
  | .parens e => .parens (stripNewlines e)
  | .ws Trivia.parenNl e => .ws Trivia.space (stripNewlines e)
  | .ws t e => .ws t (stripNewlines e)

/-- `SwitchStringQuotesTransformer` applied over a whole expression:
`leave_SimpleString` fires on every string-literal sub-node; an error
raised there propagates. -/
def switchQuotesExpr (avoid : Char) : Expr → Except String Expr
  | .name v => .ok (.name v)
  | .intLit v => .ok (.intLit v)
  | .str v =>
    match leaveSimpleString avoid v with
    | .error e => .error e
    | .ok v2 => .ok (.str v2)
  | .attr e f =>
    match switchQuotesExpr avoid e with
    | .error er => .error er
    | .ok e2 => .ok (.attr e2 f)
  | .sub e i =>
    match switchQuotesExpr avoid e with
    | .error er => .error er
    | .ok e2 =>
      match switchQuotesExpr avoid i with
      | .error er => .error er
      | .ok i2 => .ok (.sub e2 i2)
  | .awaitE e =>
    match switchQuotesExpr avoid e with
    | .error er => .error er
    | .ok e2 => .ok (.awaitE e2)
  | .fstr v => .ok (.fstr v)
  | .parens e =>
    match switchQuotesExpr avoid e with
    | .error er => .error er
    | .ok e2 => .ok (.parens e2)
  | .ws t e =>
    match switchQuotesExpr avoid e with
    | .error er => .error er
    | .ok e2 => .ok (.ws t e2)

/-- Modelled from the spec: the external node-to-text renderer
(`self.module.code_for_node`), defined structurally on the model
nodes. -/
def render : Expr → Chars
  | .name v => v
  | .intLit v => v
  | .str v => v
  | .attr e f => render e ++ '.' :: f
  | .sub e i => render e ++ '[' :: (render i ++ [']'])
  | .awaitE e => 'a' :: 'w' :: 'a' :: 'i' :: 't' :: ' ' :: render e
  | .fstr v => v
  | .parens e => '(' :: (render e ++ [')'])
  | .ws Trivia.space e => ' ' :: render e
  | .ws Trivia.parenNl e => '\n' :: render e
  | .ws Trivia.comm e => '#' :: '\n' :: render e

/-- `StringQuoteGatherer`: the last character of every string-literal
sub-node (`node.value[-1]`). -/
def stringEnds : Expr → List Char
  | .name _ => []
  | .intLit _ => []
  | .str v => match v.getLast? with | some c => [c] | none => []
  | .attr e _ => stringEnds e
  | .sub e i => stringEnds e ++ stringEnds i
  | .awaitE e => stringEnds e
  | .fstr _ => []
  | .parens e => stringEnds e
  | .ws _ e => stringEnds e

/-- `expr.lpar` and `expr.rpar` nonempty: the node carries its own
parentheses. -/
def isParenthesized : Expr → Bool
  | .parens _ => true
  | _ => false

/-! ### Field reference resolver: `_find_expr_from_field_name` -/

def isIdentStart (c : Char) : Bool := c.isAlpha || c = '_'

def isIdentChar (c : Char) : Bool := c.isAlphanum || c = '_'

/-- Modelled from the spec: an atom of the field-reference grammar — an
integer literal or an identifier.  (Subscript contents are modelled at
this granularity as well.) -/
def parseAtom (s : Chars) : Except String Expr :=
  if s ≠ [] ∧ s.all (fun c => c.isDigit) then .ok (.intLit s)
  else if s ≠ [] ∧ isIdentStart (s.headD ' ') ∧ s.all isIdentChar then .ok (.name s)
  else .error "Syntax Error: invalid field expression!"

inductive ChainMode
  | sep
  | dot (acc : Chars)
  | brk (acc : Chars)

/-- Modelled from the spec: the accessor chain of a field reference — a
sequence of dot-attribute and bracket-subscript accessors following the
head atom. -/
def parseChainAux : Expr → ChainMode → List Char → Except String Expr
  | e, .sep, [] => .ok e
  | e, .dot acc, [] =>
    if acc = [] then .error "Syntax Error: empty attribute!" else .ok (.attr e acc)
  | _, .brk _, [] => .error "Syntax Error: unclosed subscript!"
  | e, .sep, c :: cs =>
    if c = '.' then parseChainAux e (.dot []) cs
    else if c = '[' then parseChainAux e (.brk []) cs
    else .error "Syntax Error: unexpected character!"
  | e, .dot acc, c :: cs =>
    if c = '.' then
      if acc = [] then .error "Syntax Error: empty attribute!"
      else parseChainAux (.attr e acc) (.dot []) cs
    else if c = '[' then
      if acc = [] then .error "Syntax Error: empty attribute!"
      else parseChainAux (.attr e acc) (.brk []) cs
    else if isIdentChar c then parseChainAux e (.dot (acc ++ [c])) cs
    else .error "Syntax Error: bad attribute character!"
  | e, .brk acc, c :: cs =>
    if c = ']' then
      match parseAtom acc with
      | .ok i => parseChainAux (.sub e i) .sep cs
      | .error er => .error er
    else parseChainAux e (.brk (acc ++ [c])) cs

/-- Modelled from the spec: the external `cst.parse_expression`,
restricted to the field-reference grammar of the resolver — an
optionally parenthesized head atom followed by an accessor chain.  A
parenthesized integer head parses to the bare integer node, matching how
`_get_lhs` and `deep_replace` treat the node produced by the
parenthesize-the-head trick. -/
def parseExpression (s : Chars) : Except String Expr :=
  match s with
  | '(' :: rest =>
    match splitFirst ')' rest with
    | some (inner, rest2) =>
      match parseAtom inner with
      | .ok e => parseChainAux e .sep rest2
      | .error er => .error er
    | none => .error "Syntax Error: unbalanced parenthesis!"
  | _ =>
    match parseAtom (s.takeWhile isIdentChar) with
    | .ok e => parseChainAux e .sep (s.drop (s.takeWhile isIdentChar).length)
    | .error er => .error er

/-- `_get_lhs`: strip the accessor chain to find the head node. -/
def getLhs : Expr → Except String Expr
  | .name v => .ok (.name v)
  | .intLit v => .ok (.intLit v)
  | .attr e _ => getLhs e
  | .sub e _ => getLhs e
  | _ => .error "Unsupported node type!"

/-- `field_expr.deep_replace(lhs, args[index].value)`: the head found by
`_get_lhs` is the unique node at the end of the `value` chain, so
identity replacement is replacement along that chain. -/
def deepReplaceHead : Expr → Expr → Expr
  | .attr e f, r => .attr (deepReplaceHead e r) f
  | .sub e i, r => .sub (deepReplaceHead e r) i
  | _, r => r

/-- `int(lhs.value)` on a digit string. -/
def natOfDigits (v : Chars) : Nat :=
  v.foldl (fun n c => n * 10 + (c.toNat - '0'.toNat)) 0

/-- The parenthesize-the-head trick: a field name containing a dot is
rewritten so that the part before the first dot is wrapped in
parentheses. -/
def dotTrick (fieldname : Chars) : Chars :=
  if '.' ∈ fieldname then
    match splitFirst '.' fieldname with
    | some p => '(' :: (p.1 ++ ')' :: '.' :: p.2)
    | none => fieldname
  else fieldname

/-- First argument whose keyword matches the given name. -/
def argFind (nm : Chars) : List Arg → Option Arg
  | [] => none
  | a :: rest =>
    match a.keyword with
    | some k => if k = nm then some a else argFind nm rest
    | none => argFind nm rest

/-- `_find_expr_from_field_name`: parse the field name, find the head,
bail out (non-fatally, `None`) when any argument is a spread argument,
then substitute the positional or keyword argument for the head.
Out-of-bounds or unmatched references raise. -/
def findExprFromFieldName (fieldname : Chars) (args : List Arg) :
    Except String (Option Expr) :=
  match parseExpression (dotTrick fieldname) with
  | .error e => .error e
  | .ok fieldExpr =>
    match getLhs fieldExpr with
    | .error e => .error e
    | .ok lhs =>
      if args.any (fun a => a.star ≠ []) then .ok none
      else
        match lhs with
        | .intLit v =>
          match args[natOfDigits v]? with
          | some a => .ok (some (deepReplaceHead fieldExpr a.value))
          | none => .error "Logic error, arg sequence out of bounds!"
        | .name nm =>
          match argFind nm args with
          | some a => .ok (some (deepReplaceHead fieldExpr a.value))
          | none => .error "Logic error, arg name out of bounds!"
        | _ => .error "Logic error, unsupported fieldname expression!"

/-! ### Call rewriter: `ConvertFormatStringCommand.leave_Call` -/

/-- A part of the assembled formatted string: literal text
(`FormattedStringText`) or an expression with an optional conversion
(`FormattedStringExpression`).  An expression part carries no format
spec at all — the node kind has no such slot. -/
inductive FPart
  | text (t : Chars)
  | exprPart (e : Expr) (conversion : Option Chars)
  deriving DecidableEq

/-- The assembled `FormattedString` node: parts, the starting marker
(`f` plus prefix plus quote) and the ending quote. -/
structure FString where
  parts : List FPart
  fstart : Chars
  fend : Chars
  deriving DecidableEq

/-- The literal-text parts contributed by one token: one text part when
the literal text is nonempty, none otherwise. -/
def litParts (lit : Chars) : List FPart :=
  if lit = [] then [] else [FPart.text lit]

/-- Auto-numbering of empty field names: an empty name becomes the
decimal rendering of the insertion counter, which is then advanced. -/
def autoName (fname : Chars) (counter : Nat) : Chars × Nat :=
  if fname = [] then (Nat.toDigits 10 counter, counter + 1) else (fname, counter)

/-- `format_spec is not None and len(format_spec) > 0`. -/
def specNonEmpty : Option Chars → Bool
  | some s => s.length > 0
  | none => false

/-- The per-field pipeline of `leave_Call` after the format-spec check:
resolve the reference, reject comments / nested formatted strings /
awaits, strip newlines, swap quotes, reject backslashes in the rendered
text, parenthesize a leading-open-brace or trailing-close-brace
rendering, and reject embedded strings ending in the outer quote.
`ok none` is the warn-and-leave-unchanged outcome, `error` the fatal
one. -/
def processField (quote : Chars) (args : List Arg) (fname : Chars) :
    Except String (Option Expr) :=
  match findExprFromFieldName fname args with
  | .error e => .error e
  | .ok none => .ok none
  | .ok (some expr0) =>
    if hasComment expr0 then .ok none
    else if hasFStr expr0 then .ok none
    else if hasAwait expr0 then .ok none
    else
      match switchQuotesExpr (quote.headD ' ') (stripNewlines expr0) with
      | .error e => .error e
      | .ok expr1 =>
        if '\\' ∈ render expr1 then .ok none
        else
          if ((render expr1).head? = some '{' ∨ (render expr1).getLast? = some '}')
              ∧ ¬isParenthesized expr1 then
            if (stringEnds (Expr.parens expr1)).any (fun c => c ∈ quote) then .ok none
            else .ok (some (Expr.parens expr1))
          else
            if (stringEnds expr1).any (fun c => c ∈ quote) then .ok none
            else .ok (some expr1)

/-- The token loop of `leave_Call`: literal text is appended, an empty
field name is auto-numbered, a non-empty format spec or a failing field
aborts with `ok none` (the call is left unchanged), a fatal error
propagates, and otherwise the parts accumulate in order. -/
def processTokens (quote : Chars) (args : List Arg) :
    Nat → List Tok → Except String (Option (List FPart))
  | _, [] => .ok (some [])
  | counter, (lit, fname?, spec?, conv?) :: rest =>
    match fname? with
    | none =>
      match processTokens quote args counter rest with
      | .error e => .error e
      | .ok none => .ok none
      | .ok (some parts) => .ok (some (litParts lit ++ parts))
    | some fname =>
      if specNonEmpty spec? then .ok none
      else
        match processField quote args (autoName fname counter).1 with
        | .error e => .error e
        | .ok none => .ok none
        | .ok (some expr) =>
          match processTokens quote args (autoName fname counter).2 rest with
          | .error e => .error e
          | .ok none => .ok none
          | .ok (some parts) =>
            .ok (some (litParts lit ++ FPart.exprPart expr conv? :: parts))

/-- The final sanity check on the quote marker before building the
`FormattedString` node. -/
def validQuote (quote : Chars) : Bool :=
  quote = ['"'] ∨ quote = ['"', '"', '"'] ∨ quote = ['\''] ∨ quote = ['\'', '\'', '\'']

/-- `leave_Call` on a call that matches `<string literal>.format(args)`:
decompose the literal, tokenize its inner text, process every token, and
either return the new `FormattedString` (`ok (some _)`), leave the call
unchanged (`ok none`), or propagate a fatal error. -/
def leaveCall (stringvalue : Chars) (args : List Arg) :
    Except String (Option FString) :=
  match stringPrefixAndQuotes stringvalue with
  | .error e => .error e
  | .ok (pfx, quote, innards) =>
    match getTokens innards with
    | .error e => .error e
    | .ok toks =>
      match processTokens quote args 0 toks with
      | .error e => .error e
      | .ok none => .ok none
      | .ok (some parts) =>
        if validQuote quote then
          .ok (some ⟨parts, 'f' :: (pfx ++ quote), quote⟩)
        else .error "Invalid f-string quote!"

/-! ### Atomicity of the call rewriter (C1) -/

/-- A deterministic scan over the token list computing whether some
field fails one of the per-call (recoverable) checks: a non-empty format
spec, an unresolvable reference (`ok none` from the resolver, i.e.
spread arguments), or one of the embedding checks inside `processField`.
Fatal errors are not failures in this sense — they propagate instead of
leaving the call unchanged — so the scan skips them.  The auto-numbering
counter advances exactly as in `processTokens`. -/
def anyFieldFails (quote : Chars) (args : List Arg) :
    Nat → List Tok → Bool
  | _, [] => false
  | counter, (_, fname?, spec?, _) :: rest =>
    match fname? with
    | none => anyFieldFails quote args counter rest
    | some fname =>
      if specNonEmpty spec? then true
      else
        match processField quote args (autoName fname counter).1 with
        | .error _ => anyFieldFails quote args (autoName fname counter).2 rest
        | .ok none => true
        | .ok (some _) => anyFieldFails quote args (autoName fname counter).2 rest

/-- Number of field tokens. -/
def countFields : List Tok → Nat
  | [] => 0
  | (_, some _, _, _) :: rest => countFields rest + 1
  | (_, none, _, _) :: rest => countFields rest

/-- Number of expression parts in an assembled part list. -/
def countExprParts : List FPart → Nat
  | [] => 0
  | FPart.exprPart _ _ :: rest => countExprParts rest + 1
  | FPart.text _ :: rest => countExprParts rest

theorem countExprParts_litParts (lit : Chars) (p : List FPart) :
    countExprParts (litParts lit ++ p) = countExprParts p := by
  unfold litParts
  split
  · rfl
  · simp [countExprParts]

theorem processTokens_atomic (quote : Chars) (args : List Arg) :
    ∀ (toks : List Tok) (counter : Nat) (r : Option (List FPart)),
      processTokens quote args counter toks = .ok r →
      (anyFieldFails quote args counter toks = true → r = none) ∧
      (∀ parts, r = some parts → countExprParts parts = countFields toks) := by
  intro toks
  induction toks with
  | nil =>
    intro counter r h
    simp only [processTokens] at h
    injection h with h1
    subst h1
    constructor
    · intro hf
      simp [anyFieldFails] at hf
    · intro parts hp
      injection hp with h2
      subst h2
      rfl
  | cons tok rest ih =>
    intro counter r h
    obtain ⟨lit, fq, sq, cq⟩ := tok
    cases fq with
    | none =>
      simp only [processTokens] at h
      rcases hrec : processTokens quote args counter rest with e | ro
      · rw [hrec] at h
        exact Except.noConfusion h
      · rw [hrec] at h
        have hih := ih counter ro hrec
        cases ro with
        | none =>
          injection h with h1
          subst h1
          exact ⟨fun _ => rfl, fun parts hp => absurd hp (by simp)⟩
        | some parts0 =>
          injection h with h1
          subst h1
          constructor
          · intro hf
            have hf' : anyFieldFails quote args counter rest = true := by
              simpa [anyFieldFails] using hf
            exact absurd (hih.1 hf') (by simp)
          · intro parts hp
            injection hp with h2
            subst h2
            rw [countExprParts_litParts]
            simp only [countFields]
            exact hih.2 parts0 rfl
    | some fname =>
      by_cases hspec : specNonEmpty sq = true
      · simp only [processTokens, hspec, if_true] at h
        injection h with h1
        subst h1
        exact ⟨fun _ => rfl, fun parts hp => absurd hp (by simp)⟩
      · have hspec' : specNonEmpty sq = false := by
          simpa using hspec
        simp only [processTokens, hspec', Bool.false_eq_true, if_false] at h
        rcases hpf : processField quote args (autoName fname counter).1 with e | eo
        · rw [hpf] at h
          exact Except.noConfusion h
        · rw [hpf] at h
          cases eo with
          | none =>
            injection h with h1
            subst h1
            exact ⟨fun _ => rfl, fun parts hp => absurd hp (by simp)⟩
          | some expr =>
            rcases hrec : processTokens quote args (autoName fname counter).2 rest with e | ro
            · rw [hrec] at h
              exact Except.noConfusion h
            · rw [hrec] at h
              have hih := ih (autoName fname counter).2 ro hrec
              cases ro with
              | none =>
                injection h with h1
                subst h1
                exact ⟨fun _ => rfl, fun parts hp => absurd hp (by simp)⟩
              | some parts0 =>
                injection h with h1
                subst h1
                constructor
                · intro hf
                  have hf' : anyFieldFails quote args (autoName fname counter).2 rest = true := by
                    simpa [anyFieldFails, hspec', hpf] using hf
                  exact absurd (hih.1 hf') (by simp)
                · intro parts hp
                  injection hp with h2
                  subst h2
                  rw [countExprParts_litParts]
                  simp only [countExprParts, countFields]
                  rw [hih.2 parts0 rfl]

/-- C1: `leave_Call` is atomic per call.  On any run that does not raise
a fatal error: if some field fails resolution or one of the validation
checks (non-empty format spec, unresolvable reference, embedded comment,
nested formatted string, await, backslash in the rendered text, or quote
collision), the result is `none` — the call node is returned unchanged —
and whenever a `FormattedString` is produced, it contains one expression
part for every field token: a complete rewrite, never a partial one. -/
theorem leaveCall_atomic (stringvalue : Chars) (args : List Arg)
    (pfx quote innards : Chars) (toks : List Tok) (r : Option FString)
    (hpq : stringPrefixAndQuotes stringvalue = .ok (pfx, quote, innards))
    (htk : getTokens innards = .ok toks)
    (h : leaveCall stringvalue args = .ok r) :
    (anyFieldFails quote args 0 toks = true → r = none) ∧
    (∀ fs, r = some fs → countExprParts fs.parts = countFields toks) := by
  simp only [leaveCall, hpq, htk] at h
  split at h
  · exact Except.noConfusion h
  · injection h with h1
    subst h1
    exact ⟨fun _ => rfl, fun fs hfs => absurd hfs (by simp)⟩
  · rename_i parts heq
    have hmain := processTokens_atomic quote args toks 0 (some parts) heq
    split at h
    · injection h with h1
      subst h1
      refine ⟨fun hf => absurd (hmain.1 hf) (by simp), ?_⟩
      intro fs hfs
      injection hfs with h2
      subst h2
      exact hmain.2 parts rfl
    · exact Except.noConfusion h

/-- Witness for C1: the call shaped like a single-quoted literal with
one field carrying format spec `d` and no arguments; the field fails the
format-spec check and `leave_Call` returns the call unchanged. -/
theorem leaveCall_atomic_witness :
    (anyFieldFails ['\''] [] 0 [([], some [], some ['d'], none), ([], none, none, none)] = true →
      (none : Option FString) = none) ∧
    (∀ fs, (none : Option FString) = some fs →
      countExprParts fs.parts =
        countFields [([], some [], some ['d'], none), ([], none, none, none)]) :=
  leaveCall_atomic ['\'', '{', ':', 'd', '}', '\''] [] [] ['\''] ['{', ':', 'd', '}']
    [([], some [], some ['d'], none), ([], none, none, none)] none rfl rfl rfl

/-! ### Empty format specs (C10) and spread arguments (C7) -/

/-- C10: a field written with a colon but an empty format-spec text does
not abort the call — the abort fires only for a non-empty spec — and the
field behaves exactly as one with no spec at all: the token loop treats
`some empty` and `none` identically, so the field is emitted as a plain
expression part (which has no spec slot) and the trailing colon is
dropped.  Concretely, a single-quoted one-field literal with an empty
spec and a keyword argument rewrites to the plain f-string field. -/
theorem emptySpec_rewrites :
    (∀ (quote : Chars) (args : List Arg) (counter : Nat) (lit fname : Chars)
      (conv : Option Chars) (rest : List Tok),
      processTokens quote args counter ((lit, some fname, some [], conv) :: rest) =
        processTokens quote args counter ((lit, some fname, none, conv) :: rest)) ∧
    leaveCall ['\'', '{', 'x', ':', '}', '\''] [⟨[], some ['x'], Expr.name ['y']⟩] =
      .ok (some ⟨[FPart.exprPart (Expr.name ['y']) none], ['f', '\''], ['\'']⟩) := by
  constructor
  · intro quote args counter lit fname conv rest
    simp [processTokens, specNonEmpty]
  · rfl

/-- C7 counterexample: a call argument list with a spread argument makes
`_find_expr_from_field_name` return `None` — the non-fatal no-match
outcome — rather than raising an error that aborts the file transform. -/
theorem starArgs_nonfatal_cex :
    findExprFromFieldName ['0'] [⟨['*'], none, Expr.name ['a']⟩] = .ok none := by
  rfl

/-- C7 (amended): whenever the field name itself parses (so no fatal
parse error fires first), a spread argument in the argument list makes
the resolver return the non-fatal no-match result `None`; `leave_Call`
then warns and leaves that one call unchanged rather than aborting the
file. -/
theorem starArgs_return_none (fieldname : Chars) (args : List Arg) (fe lhs : Expr)
    (hp : parseExpression (dotTrick fieldname) = .ok fe)
    (hl : getLhs fe = .ok lhs)
    (hs : args.any (fun a => a.star ≠ []) = true) :
    findExprFromFieldName fieldname args = .ok none := by
  simp only [findExprFromFieldName, hp, hl, hs, if_true]

/-- Witness for the amended C7 at a double-star spread argument. -/
theorem starArgs_return_none_witness :
    findExprFromFieldName ['x'] [⟨['*', '*'], none, Expr.name ['b']⟩] = .ok none :=
  starArgs_return_none ['x'] [⟨['*', '*'], none, Expr.name ['b']⟩]
    (Expr.name ['x']) (Expr.name ['x']) rfl rfl rfl

/-- Witness for C5: swapping the single-quoted two-character literal
`ab` to double quotes preserves its value, so the swap is accepted. -/
theorem leaveSimpleString_spec_witness :
    leaveSimpleString '\'' ['\'', 'a', 'b', '\''] = .ok ['"', 'a', 'b', '"'] := by
  have h := (leaveSimpleString_spec '\'' ['\'', 'a', 'b', '\''] [] ['\''] ['a', 'b'] rfl).1
      ['a', 'b'] ['a', 'b'] (by decide) rfl rfl
  rw [if_pos rfl] at h
  exact h

/-! ### Import planner: `AddImportsVisitor`

Module and object names are `Chars`.  Python's `sorted` on strings is
lexicographic comparison of code points, modelled by `charsLeB`. -/

/-- Lexicographic code-point comparison of two names (Python string
comparison as used by `sorted`). -/
def charsLeB : List Char → List Char → Bool
  | [], _ => true
  | _ :: _, [] => false
  | a :: as, b :: bs =>
    if a.toNat = b.toNat then charsLeB as bs else decide (a.toNat < b.toNat)

def nameLe (a b : Chars) : Prop := charsLeB a b = true

instance : DecidableRel nameLe :=
  fun a b => instDecidableEqBool (charsLeB a b) true

theorem charsLeB_total : ∀ a b : Chars, charsLeB a b = true ∨ charsLeB b a = true := by
  intro a
  induction a with
  | nil => intro b; left; rfl
  | cons x xs ih =>
    intro b
    cases b with
    | nil => right; rfl
    | cons y ys =>
      simp only [charsLeB]
      by_cases hxy : x.toNat = y.toNat
      · simp only [hxy, if_pos rfl, if_pos rfl]
        exact ih ys
      · have hyx : ¬y.toNat = x.toNat := fun q => hxy q.symm
        simp only [if_neg hxy, if_neg hyx, decide_eq_true_eq]
        omega

theorem charsLeB_trans :
    ∀ a b c : Chars, charsLeB a b = true → charsLeB b c = true → charsLeB a c = true := by
  intro a
  induction a with
  | nil => intro b c _ _; rfl
  | cons x xs ih =>
    intro b c hab hbc
    cases b with
    | nil => simp [charsLeB] at hab
    | cons y ys =>
      cases c with
      | nil => simp [charsLeB] at hbc
      | cons z zs =>
        simp only [charsLeB] at hab hbc ⊢
        by_cases hxy : x.toNat = y.toNat
        · by_cases hyz : y.toNat = z.toNat
          · rw [if_pos hxy] at hab
            rw [if_pos hyz] at hbc
            rw [if_pos (hxy.trans hyz)]
            exact ih ys zs hab hbc
          · rw [if_neg hyz, decide_eq_true_eq] at hbc
            have hxz : ¬x.toNat = z.toNat := by omega
            rw [if_neg hxz, decide_eq_true_eq]
            omega
        · rw [if_neg hxy, decide_eq_true_eq] at hab
          by_cases hyz : y.toNat = z.toNat
          · have hxz : ¬x.toNat = z.toNat := by omega
            rw [if_neg hxz, decide_eq_true_eq]
            omega
          · rw [if_neg hyz, decide_eq_true_eq] at hbc
            have hxz : ¬x.toNat = z.toNat := by omega
            rw [if_neg hxz, decide_eq_true_eq]
            omega

instance : IsTotal Chars nameLe := ⟨charsLeB_total⟩

instance : IsTrans Chars nameLe := ⟨charsLeB_trans⟩

/-- Python `sorted` on a collection of names. -/
def sortNames (l : List Chars) : List Chars := List.insertionSort nameLe l

/-- Leading lines attached to a statement: blank lines or comment
lines. -/
inductive LeadLine
  | blank
  | commentLine
  deriving DecidableEq

/-- The names of a from-import: a wildcard star or a name list. -/
inductive FromNames
  | star
  | names (l : List Chars)
  deriving DecidableEq

/-- Statement kinds the planner distinguishes: bare imports,
from-imports, the strict-mode sentinel assignment, and everything
else (opaque). -/
inductive StmtKind
  | imp (module : Chars)
  | impFrom (module : Chars) (ns : FromNames)
  | strictAssign
  | other (tag : Nat)
  deriving DecidableEq

structure Stmt where
  leading : List LeadLine
  kind : StmtKind
  deriving DecidableEq

structure PyModule where
  body : List Stmt
  deriving DecidableEq

def futureName : Chars := "__future__".data

/-- Set-insert for a name list used as a set. -/
def insertName (n : Chars) (l : List Chars) : List Chars :=
  if n ∈ l then l else l ++ [n]

/-- Set-union of new names into an existing name set. -/
def unionNames (cur ns : List Chars) : List Chars :=
  ns.foldl (fun acc n => insertName n acc) cur

/-- Ordered-map update: merge names into the entry for `m`, appending a
fresh entry when none exists. -/
def mapAdd : List (Chars × List Chars) → Chars → List Chars → List (Chars × List Chars)
  | [], m, ns => [(m, unionNames [] ns)]
  | (k, cur) :: rest, m, ns =>
    if k = m then (k, unionNames cur ns) :: rest
    else (k, cur) :: mapAdd rest m ns

def lookupKey (m : Chars) : List (Chars × List Chars) → Option (List Chars)
  | [] => none
  | (k, v) :: rest => if k = m then some v else lookupKey m rest

def eraseKey (m : Chars) : List (Chars × List Chars) → List (Chars × List Chars)
  | [] => []
  | (k, v) :: rest => if k = m then rest else (k, v) :: eraseKey m rest

def setKey (m : Chars) (v : List Chars) : List (Chars × List Chars) → List (Chars × List Chars)
  | [] => []
  | (k, cur) :: rest => if k = m then (k, v) :: rest else (k, cur) :: setKey m v rest

/-- The scan result of the import scanner: bare-imported modules and the
per-module from-import object names, with the star name standing for a
wildcard.  (The identity list of import statements is recovered from the
statement kinds: every import statement of the original body is in it.) -/
structure GatherResult where
  module_imports : List Chars
  object_mapping : List (Chars × List Chars)

def starName : Chars := ['*']

/-- One scanner step. -/
def gatherStep (g : GatherResult) (s : Stmt) : GatherResult :=
  match s.kind with
  | .imp m => ⟨insertName m g.module_imports, g.object_mapping⟩
  | .impFrom m FromNames.star => ⟨g.module_imports, mapAdd g.object_mapping m [starName]⟩
  | .impFrom m (FromNames.names l) => ⟨g.module_imports, mapAdd g.object_mapping m l⟩
  | _ => g

def gatherAux : GatherResult → List Stmt → GatherResult
  | g, [] => g
  | g, s :: rest => gatherAux (gatherStep g s) rest

/-- Modelled from the spec: the external `GatherImportsVisitor` — a
single pass collecting the set of bare-imported modules and the
per-module object names of from-imports, with a wildcard sentinel for
star imports. -/
def gatherImports (body : List Stmt) : GatherResult :=
  gatherAux ⟨[], []⟩ body

/-- `self.module_imports` after `__init__`: modules requested without an
object, deduplicated. -/
def initModuleImports (reqs : List (Chars × Option Chars)) : List Chars :=
  (reqs.filterMap (fun r => match r.2 with | none => some r.1 | some _ => none)).dedup

/-- Modules requested with an object, in first-seen order. -/
def reqModulesWithObj (reqs : List (Chars × Option Chars)) : List Chars :=
  (reqs.filterMap (fun r => match r.2 with | some _ => some r.1 | none => none)).dedup

/-- The requested object set of one module. -/
def objsFor (reqs : List (Chars × Option Chars)) (m : Chars) : List Chars :=
  (reqs.filterMap (fun r => if r.1 = m then r.2 else none)).dedup

/-- `self.module_mapping` after `__init__`: one entry per module with
requested objects, keyed in `sorted(from_imports)` order. -/
def initMapping (reqs : List (Chars × Option Chars)) : List (Chars × List Chars) :=
  (sortNames (reqModulesWithObj reqs)).map (fun m => (m, objsFor reqs m))

/-- One iteration of the subtraction loop in `visit_Module` for one
gathered `(module, imports)` entry. -/
def subtractStep (mp : List (Chars × List Chars)) (entry : Chars × List Chars) :
    List (Chars × List Chars) :=
  match lookupKey entry.1 mp with
  | none => mp
  | some cur =>
    if starName ∈ entry.2 then eraseKey entry.1 mp
    else if cur.filter (fun o => decide (o ∉ entry.2)) = [] then eraseKey entry.1 mp
    else setKey entry.1 (cur.filter (fun o => decide (o ∉ entry.2))) mp

def subtractObjects (mp : List (Chars × List Chars))
    (entries : List (Chars × List Chars)) : List (Chars × List Chars) :=
  entries.foldl subtractStep mp

/-- `visit_Module`: subtract the gathered existing imports from the
pending module imports and the pending mapping. -/
def visitModule (g : GatherResult) (mi : List Chars)
    (mp : List (Chars × List Chars)) : List Chars × List (Chars × List Chars) :=
  (mi.filter (fun m => decide (m ∉ g.module_imports)), subtractObjects mp g.object_mapping)

/-- `leave_ImportFrom`: a non-star from-import for a module still in the
mapping absorbs the pending names (prepended) and consumes the mapping
entry; every other statement is unchanged. -/
def leaveImportFrom (mp : List (Chars × List Chars)) (s : Stmt) :
    List (Chars × List Chars) × Stmt :=
  match s.kind with
  | .impFrom m (FromNames.names l) =>
    match lookupKey m mp with
    | some objs => (eraseKey m mp, ⟨s.leading, .impFrom m (.names (objs ++ l))⟩)
    | none => (mp, s)
  | _ => (mp, s)

/-- The traversal applying `leave_ImportFrom` to every statement in
order, threading the mapping. -/
def traverseBody : List (Chars × List Chars) → List Stmt →
    List (Chars × List Chars) × List Stmt
  | mp, [] => (mp, [])
  | mp, s :: rest =>
    ((traverseBody (leaveImportFrom mp s).1 rest).1,
     (leaveImportFrom mp s).2 :: (traverseBody (leaveImportFrom mp s).1 rest).2)

def isImportStmt (s : Stmt) : Bool :=
  match s.kind with
  | .imp _ => true
  | .impFrom _ _ => true
  | _ => false

/-- The strict-sentinel shape check on the first statement. -/
def startsWithStrict : List Stmt → Bool
  | s :: _ => s.kind = StmtKind.strictAssign
  | [] => false

def importLocAux : Nat → Nat → List Stmt → Nat
  | acc, _, [] => acc
  | acc, i, s :: rest => importLocAux (if isImportStmt s then i + 1 else acc) (i + 1) rest

/-- The insertion index of `_split_module`: 1 when the first statement
is the strict sentinel (0 otherwise), advanced to one past the last
original statement that imports anything. -/
def importLoc (body : List Stmt) : Nat :=
  importLocAux (if startsWithStrict body then 1 else 0) 0 body

/-- `_insert_empty_line`. -/
def insertEmptyLine : List Stmt → List Stmt
  | [] => []
  | s :: rest =>
    match s.leading with
    | [] => ⟨[LeadLine.blank], s.kind⟩ :: rest
    | LeadLine.blank :: _ => s :: rest
    | LeadLine.commentLine :: _ => ⟨LeadLine.blank :: s.leading, s.kind⟩ :: rest

/-- A newly parsed `from module import a, b` statement: object names
sorted, no leading lines. -/
def mkFromStmt (m : Chars) (ns : List Chars) : Stmt :=
  ⟨[], .impFrom m (.names (sortNames ns))⟩

/-- A newly parsed `import module` statement. -/
def mkImportStmt (m : Chars) : Stmt := ⟨[], .imp m⟩

/-- The `__future__` from-import statements emitted first. -/
def newFutureImports (mp : List (Chars × List Chars)) : List Stmt :=
  (mp.filter (fun p => decide (p.1 = futureName))).map (fun p => mkFromStmt p.1 p.2)

/-- The new bare `import module` statements, sorted by module. -/
def newModuleImports (mi : List Chars) : List Stmt :=
  (sortNames mi).map mkImportStmt

/-- The remaining non-future `from module import ...` statements, in
mapping order. -/
def newFromImports (mp : List (Chars × List Chars)) : List Stmt :=
  (mp.filter (fun p => decide (¬p.1 = futureName))).map (fun p => mkFromStmt p.1 p.2)

/-- `leave_Module` after the traversal: nothing to do when both pending
collections are empty; otherwise split at the insertion index computed
on the original body, ensure a separating blank line, and assemble. -/
def leaveModule (mi : List Chars) (mp : List (Chars × List Chars))
    (origBody newBody : List Stmt) : List Stmt :=
  if mi = [] ∧ mp = [] then newBody
  else
    newFutureImports mp ++ newBody.take (importLoc origBody) ++ newModuleImports mi ++
      newFromImports mp ++ insertEmptyLine (newBody.drop (importLoc origBody))

/-- The `__init__` validation: a bare `__future__` request is invalid. -/
def hasBareFuture (reqs : List (Chars × Option Chars)) : Bool :=
  reqs.any (fun r => decide (r.1 = futureName ∧ r.2 = none))

/-- The pending state after `visit_Module`. -/
def pendingAfterVisit (reqs : List (Chars × Option Chars)) (body : List Stmt) :
    List Chars × List (Chars × List Chars) :=
  visitModule (gatherImports body) (initModuleImports reqs) (initMapping reqs)

/-- The whole `AddImportsVisitor` pass over one module: validate the
requests, gather and subtract existing imports, run the
`leave_ImportFrom` traversal, then `leave_Module`. -/
def addImports (reqs : List (Chars × Option Chars)) (md : PyModule) :
    Except String PyModule :=
  if hasBareFuture reqs then .error "Cannot import __future__ directly!"
  else
    .ok ⟨leaveModule (pendingAfterVisit reqs md.body).1
      (traverseBody (pendingAfterVisit reqs md.body).2 md.body).1 md.body
      (traverseBody (pendingAfterVisit reqs md.body).2 md.body).2⟩


/-! ### Lemmas about the gathered mapping -/

/-- The name list represented by a from-import's names. -/
def fromNamesList : FromNames → List Chars
  | FromNames.star => [starName]
  | FromNames.names l => l

theorem mem_insertName (x n : Chars) (l : List Chars) :
    x ∈ insertName n l ↔ x = n ∨ x ∈ l := by
  unfold insertName
  split
  · rename_i hn
    constructor
    · exact fun hx => Or.inr hx
    · rintro (rfl | hx)
      · exact hn
      · exact hx
  · simp [List.mem_append, or_comm]

theorem mem_unionNames (x : Chars) (ns : List Chars) :
    ∀ cur, x ∈ unionNames cur ns ↔ x ∈ cur ∨ x ∈ ns := by
  induction ns with
  | nil => intro cur; simp [unionNames]
  | cons n ns ih =>
    intro cur
    show x ∈ unionNames (insertName n cur) ns ↔ _
    rw [ih (insertName n cur), mem_insertName]
    simp only [List.mem_cons]
    tauto

theorem lookupKey_mapAdd_preserve (x m m2 : Chars) (ns : List Chars) :
    ∀ (mp : List (Chars × List Chars)) (v : List Chars),
      lookupKey m mp = some v → x ∈ v →
      ∃ w, lookupKey m (mapAdd mp m2 ns) = some w ∧ x ∈ w := by
  intro mp
  induction mp with
  | nil =>
    intro v hv
    simp [lookupKey] at hv
  | cons p rest ih =>
    intro v hv hx
    obtain ⟨k, cur⟩ := p
    simp only [lookupKey] at hv
    simp only [mapAdd]
    by_cases hk : k = m2
    · rw [if_pos hk]
      by_cases hkm : k = m
      · rw [if_pos hkm] at hv
        injection hv with hv1
        subst hv1
        simp only [lookupKey, if_pos hkm]
        exact ⟨unionNames cur ns, rfl, (mem_unionNames x ns cur).mpr (Or.inl hx)⟩
      · rw [if_neg hkm] at hv
        simp only [lookupKey, if_neg hkm]
        exact ⟨v, hv, hx⟩
    · rw [if_neg hk]
      by_cases hkm : k = m
      · rw [if_pos hkm] at hv
        injection hv with hv1
        subst hv1
        simp only [lookupKey, if_pos hkm]
        exact ⟨cur, rfl, hx⟩
      · rw [if_neg hkm] at hv
        simp only [lookupKey, if_neg hkm]
        exact ih v hv hx

theorem lookupKey_mapAdd_self (x m : Chars) (ns : List Chars) (hx : x ∈ ns) :
    ∀ (mp : List (Chars × List Chars)),
      ∃ w, lookupKey m (mapAdd mp m ns) = some w ∧ x ∈ w := by
  intro mp
  induction mp with
  | nil =>
    refine ⟨unionNames [] ns, ?_, (mem_unionNames x ns []).mpr (Or.inr hx)⟩
    simp [mapAdd, lookupKey]
  | cons p rest ih =>
    obtain ⟨k, cur⟩ := p
    simp only [mapAdd]
    by_cases hk : k = m
    · rw [if_pos hk]
      simp only [lookupKey, if_pos hk]
      exact ⟨unionNames cur ns, rfl, (mem_unionNames x ns cur).mpr (Or.inr hx)⟩
    · rw [if_neg hk]
      simp only [lookupKey, if_neg hk]
      exact ih

theorem gatherAux_cons (g : GatherResult) (s : Stmt) (rest : List Stmt) :
    gatherAux g (s :: rest) = gatherAux (gatherStep g s) rest := rfl

/-- Preservation of a gathered name through one scanner step. -/
theorem gatherStep_preserve (x m : Chars) (g : GatherResult) (s : Stmt)
    (h : ∃ v, lookupKey m g.object_mapping = some v ∧ x ∈ v) :
    ∃ v, lookupKey m (gatherStep g s).object_mapping = some v ∧ x ∈ v := by
  obtain ⟨v, hv, hx⟩ := h
  unfold gatherStep
  rcases s with ⟨ld, k⟩
  cases k with
  | imp m2 => exact ⟨v, hv, hx⟩
  | impFrom m2 ns =>
    cases ns with
    | star => exact lookupKey_mapAdd_preserve x m m2 [starName] g.object_mapping v hv hx
    | names l => exact lookupKey_mapAdd_preserve x m m2 l g.object_mapping v hv hx
  | strictAssign => exact ⟨v, hv, hx⟩
  | other t => exact ⟨v, hv, hx⟩

theorem gatherAux_preserve (x m : Chars) (body : List Stmt) :
    ∀ (g : GatherResult),
      (∃ v, lookupKey m g.object_mapping = some v ∧ x ∈ v) →
      ∃ v, lookupKey m (gatherAux g body).object_mapping = some v ∧ x ∈ v := by
  induction body with
  | nil => intro g h; exact h
  | cons s rest ih =>
    intro g h
    rw [gatherAux_cons]
    exact ih (gatherStep g s) (gatherStep_preserve x m g s h)

theorem gatherAux_mem (x m : Chars) (ld : List LeadLine) (ns : FromNames)
    (hx : x ∈ fromNamesList ns) :
    ∀ (body : List Stmt) (g0 : GatherResult),
      Stmt.mk ld (StmtKind.impFrom m ns) ∈ body →
      ∃ v, lookupKey m (gatherAux g0 body).object_mapping = some v ∧ x ∈ v := by
  intro body
  induction body with
  | nil =>
    intro g0 hmem
    cases hmem
  | cons s rest ih =>
    intro g0 hmem
    rw [gatherAux_cons]
    rcases List.mem_cons.mp hmem with heq | htail
    · subst heq
      apply gatherAux_preserve
      unfold gatherStep
      cases ns with
      | star =>
        simp only [fromNamesList] at hx
        exact lookupKey_mapAdd_self x m [starName] hx g0.object_mapping
      | names l =>
        simp only [fromNamesList] at hx
        exact lookupKey_mapAdd_self x m l hx g0.object_mapping
    · exact ih (gatherStep g0 s) htail

/-- A from-import statement in the body leaves each of its names in the
gathered mapping of its module. -/
theorem gather_mem (x m : Chars) (ld : List LeadLine) (ns : FromNames)
    (body : List Stmt) (hmem : Stmt.mk ld (StmtKind.impFrom m ns) ∈ body)
    (hx : x ∈ fromNamesList ns) :
    ∃ v, lookupKey m (gatherImports body).object_mapping = some v ∧ x ∈ v :=
  gatherAux_mem x m ld ns hx body ⟨[], []⟩ hmem

/-! ### Lemmas about subtraction and the traversal -/

theorem subtractObjects_cons (mp : List (Chars × List Chars))
    (e : Chars × List Chars) (rest : List (Chars × List Chars)) :
    subtractObjects mp (e :: rest) = subtractObjects (subtractStep mp e) rest := rfl

theorem subtractStep_nil (e : Chars × List Chars) : subtractStep [] e = [] := by
  simp [subtractStep, lookupKey]

theorem subtractStep_mk (mp : List (Chars × List Chars)) (em : Chars) (ens : List Chars) :
    subtractStep mp (em, ens) =
      match lookupKey em mp with
      | none => mp
      | some cur =>
        if starName ∈ ens then eraseKey em mp
        else if cur.filter (fun o => decide (o ∉ ens)) = [] then eraseKey em mp
        else setKey em (cur.filter (fun o => decide (o ∉ ens))) mp := rfl

theorem subtractStep_some (mp : List (Chars × List Chars)) (em : Chars)
    (ens cur : List Chars) (h : lookupKey em mp = some cur) :
    subtractStep mp (em, ens) =
      (if starName ∈ ens then eraseKey em mp
       else if cur.filter (fun o => decide (o ∉ ens)) = [] then eraseKey em mp
       else setKey em (cur.filter (fun o => decide (o ∉ ens))) mp) := by
  rw [subtractStep_mk, h]

theorem subtractStep_none (mp : List (Chars × List Chars)) (em : Chars)
    (ens : List Chars) (h : lookupKey em mp = none) :
    subtractStep mp (em, ens) = mp := by
  rw [subtractStep_mk, h]

theorem subtractObjects_nil (entries : List (Chars × List Chars)) :
    subtractObjects [] entries = [] := by
  induction entries with
  | nil => rfl
  | cons e rest ih =>
    rw [subtractObjects_cons, subtractStep_nil]
    exact ih

/-- When the gathered entries contain the module with a wildcard or with
every pending object, the pending single-module mapping is fully
subtracted away. -/
theorem subtract_single_erase (a : Chars) (bs : List Chars) :
    ∀ (entries : List (Chars × List Chars)) (v : List Chars),
      lookupKey a entries = some v →
      (starName ∈ v ∨ ∀ o ∈ bs, o ∈ v) →
      subtractObjects [(a, bs)] entries = [] := by
  intro entries
  induction entries with
  | nil =>
    intro v hl
    simp [lookupKey] at hl
  | cons e rest ih =>
    intro v hl hv
    obtain ⟨k, w⟩ := e
    simp only [lookupKey] at hl
    rw [subtractObjects_cons]
    by_cases hk : k = a
    · rw [if_pos hk] at hl
      injection hl with hl1
      subst hl1
      have hlk : lookupKey k [(a, bs)] = some bs := by
        simp [lookupKey, hk.symm]
      have hstep : subtractStep [(a, bs)] (k, w) = [] := by
        rw [subtractStep_some [(a, bs)] k w bs hlk]
        by_cases hstw : starName ∈ w
        · rw [if_pos hstw]
          simp [eraseKey, hk]
        · rw [if_neg hstw]
          rcases hv with hst | hall
          · exact absurd hst hstw
          · have hfe : bs.filter (fun o => decide (o ∉ w)) = [] := by
              rw [List.filter_eq_nil_iff]
              intro o ho
              simp [hall o ho]
            rw [if_pos hfe]
            simp [eraseKey, hk]
      rw [hstep]
      exact subtractObjects_nil rest
    · rw [if_neg hk] at hl
      have hstep : subtractStep [(a, bs)] (k, w) = [(a, bs)] := by
        have hnone : lookupKey k [(a, bs)] = none := by
          simp only [lookupKey]
          rw [if_neg (fun q => hk q.symm)]
        rw [subtractStep_none [(a, bs)] k w hnone]
      rw [hstep]
      exact ih v hl hv

/-- The possible results of subtracting arbitrary gathered entries from
a single-module pending mapping with a nonempty object set: either the
entry is gone, or it survives with a nonempty subset of its objects. -/
theorem subtractObjects_single (a : Chars) :
    ∀ (entries : List (Chars × List Chars)) (bs : List Chars), bs ≠ [] →
      subtractObjects [(a, bs)] entries = [] ∨
      ∃ w, subtractObjects [(a, bs)] entries = [(a, w)] ∧ w ≠ [] ∧ w ⊆ bs := by
  intro entries
  induction entries with
  | nil =>
    intro bs hbs
    right
    exact ⟨bs, rfl, hbs, fun x hx => hx⟩
  | cons e rest ih =>
    intro bs hbs
    obtain ⟨k, w⟩ := e
    rw [subtractObjects_cons]
    by_cases hk : k = a
    · subst hk
      have hlk : lookupKey k [(k, bs)] = some bs := by simp [lookupKey]
      rw [subtractStep_some [(k, bs)] k w bs hlk]
      by_cases hst : starName ∈ w
      · rw [if_pos hst]
        left
        rw [show eraseKey k [(k, bs)] = [] from by simp [eraseKey]]
        exact subtractObjects_nil rest
      · rw [if_neg hst]
        by_cases hfe : bs.filter (fun o => decide (o ∉ w)) = []
        · rw [if_pos hfe]
          left
          rw [show eraseKey k [(k, bs)] = [] from by simp [eraseKey]]
          exact subtractObjects_nil rest
        · rw [if_neg hfe]
          rw [show setKey k (bs.filter (fun o => decide (o ∉ w))) [(k, bs)] =
              [(k, bs.filter (fun o => decide (o ∉ w)))] from by simp [setKey]]
          rcases ih (bs.filter (fun o => decide (o ∉ w))) hfe with h0 | ⟨w2, he, hne, hsub⟩
          · left
            exact h0
          · right
            exact ⟨w2, he, hne, hsub.trans (List.filter_sublist _).subset⟩
    · have hnone : lookupKey k [(a, bs)] = none := by
        simp only [lookupKey]
        rw [if_neg (fun q => hk q.symm)]
      rw [subtractStep_none [(a, bs)] k w hnone]
      exact ih bs hbs

theorem traverseBody_cons (mp : List (Chars × List Chars)) (s : Stmt) (rest : List Stmt) :
    traverseBody mp (s :: rest) =
      ((traverseBody (leaveImportFrom mp s).1 rest).1,
       (leaveImportFrom mp s).2 :: (traverseBody (leaveImportFrom mp s).1 rest).2) := rfl

theorem leaveImportFrom_nil (s : Stmt) : leaveImportFrom [] s = ([], s) := by
  unfold leaveImportFrom
  rcases s with ⟨ld, k⟩
  cases k with
  | imp m => rfl
  | impFrom m ns =>
    cases ns with
    | star => rfl
    | names l => simp [lookupKey]
  | strictAssign => rfl
  | other t => rfl

theorem traverseBody_nil_mp (body : List Stmt) : traverseBody [] body = ([], body) := by
  induction body with
  | nil => rfl
  | cons s rest ih =>
    rw [traverseBody_cons, leaveImportFrom_nil]
    simp [ih]

theorem traverseBody_cons_eq (mp mp2 : List (Chars × List Chars)) (s s2 : Stmt)
    (rest : List Stmt) (h : leaveImportFrom mp s = (mp2, s2)) :
    traverseBody mp (s :: rest) =
      ((traverseBody mp2 rest).1, s2 :: (traverseBody mp2 rest).2) := by
  rw [traverseBody_cons, h]

/-- Step case of `traverseBody_single` for a statement the traversal
leaves unchanged. -/
theorem traverseBody_single_unchanged (a : Chars) (bs : List Chars) (s : Stmt)
    (rest : List Stmt)
    (hlf : leaveImportFrom [(a, bs)] s = ([(a, bs)], s))
    (ih : traverseBody [(a, bs)] rest = ([(a, bs)], rest) ∨
      ((traverseBody [(a, bs)] rest).1 = [] ∧
        ∃ ld l, Stmt.mk ld (StmtKind.impFrom a (FromNames.names (bs ++ l))) ∈
          (traverseBody [(a, bs)] rest).2)) :
    traverseBody [(a, bs)] (s :: rest) = ([(a, bs)], s :: rest) ∨
    ((traverseBody [(a, bs)] (s :: rest)).1 = [] ∧
      ∃ ld l, Stmt.mk ld (StmtKind.impFrom a (FromNames.names (bs ++ l))) ∈
        (traverseBody [(a, bs)] (s :: rest)).2) := by
  rw [traverseBody_cons_eq [(a, bs)] [(a, bs)] s s rest hlf]
  rcases ih with h1 | ⟨h2, ld2, l2, hmem⟩
  · left
    rw [h1]
  · right
    exact ⟨h2, ld2, l2, List.mem_cons_of_mem _ hmem⟩

/-- The traversal over a single-module pending mapping: either no
statement consumes it (everything unchanged), or the mapping is consumed
and the output body contains the augmented from-import, whose names
start with the pending objects. -/
theorem traverseBody_single (a : Chars) (bs : List Chars) :
    ∀ (body : List Stmt),
      traverseBody [(a, bs)] body = ([(a, bs)], body) ∨
      ((traverseBody [(a, bs)] body).1 = [] ∧
        ∃ ld l, Stmt.mk ld (StmtKind.impFrom a (FromNames.names (bs ++ l))) ∈
          (traverseBody [(a, bs)] body).2) := by
  intro body
  induction body with
  | nil =>
    left
    rfl
  | cons s rest ih =>
    rcases s with ⟨ld, k⟩
    cases k with
    | imp m =>
      exact traverseBody_single_unchanged a bs _ rest (by simp [leaveImportFrom]) ih
    | strictAssign =>
      exact traverseBody_single_unchanged a bs _ rest (by simp [leaveImportFrom]) ih
    | other t =>
      exact traverseBody_single_unchanged a bs _ rest (by simp [leaveImportFrom]) ih
    | impFrom m ns =>
      cases ns with
      | star =>
        exact traverseBody_single_unchanged a bs _ rest (by simp [leaveImportFrom]) ih
      | names l =>
        by_cases hm : m = a
        · subst hm
          have hlf : leaveImportFrom [(m, bs)] ⟨ld, StmtKind.impFrom m (FromNames.names l)⟩ =
              ([], ⟨ld, StmtKind.impFrom m (FromNames.names (bs ++ l))⟩) := by
            simp [leaveImportFrom, lookupKey, eraseKey]
          rw [traverseBody_cons_eq _ _ _ _ rest hlf, traverseBody_nil_mp]
          right
          exact ⟨rfl, ld, l, List.mem_cons_self _ _⟩
        · have hlf : leaveImportFrom [(a, bs)] ⟨ld, StmtKind.impFrom m (FromNames.names l)⟩ =
              ([(a, bs)], ⟨ld, StmtKind.impFrom m (FromNames.names l)⟩) := by
            have : lookupKey m [(a, bs)] = none := by
              simp only [lookupKey]
              rw [if_neg (fun q => hm q.symm)]
            simp [leaveImportFrom, this]
          exact traverseBody_single_unchanged a bs _ rest hlf ih

/-- `leave_Module` with nothing pending returns the (traversed) body. -/
theorem leaveModule_noop (orig newB : List Stmt) : leaveModule [] [] orig newB = newB := by
  simp [leaveModule]

/-- `addImports` unfolded when the request list is valid. -/
theorem addImports_eq (reqs : List (Chars × Option Chars)) (md : PyModule)
    (h : hasBareFuture reqs = false) :
    addImports reqs md = .ok ⟨leaveModule (pendingAfterVisit reqs md.body).1
      (traverseBody (pendingAfterVisit reqs md.body).2 md.body).1 md.body
      (traverseBody (pendingAfterVisit reqs md.body).2 md.body).2⟩ := by
  unfold addImports
  rw [h]
  rfl

/-- A module that already imports (by wildcard or by name) the one
pending request is returned untouched by the whole pass. -/
theorem addImports_ab_noop (body : List Stmt) (ld : List LeadLine) (ns : FromNames)
    (hmem : Stmt.mk ld (StmtKind.impFrom ['a'] ns) ∈ body)
    (hx : starName ∈ fromNamesList ns ∨ ['b'] ∈ fromNamesList ns) :
    addImports [(['a'], some ['b'])] ⟨body⟩ = .ok ⟨body⟩ := by
  rw [addImports_eq [(['a'], some ['b'])] ⟨body⟩ rfl]
  have hmp : (pendingAfterVisit [(['a'], some ['b'])] body).2 = [] := by
    show subtractObjects (initMapping [(['a'], some ['b'])])
      (gatherImports body).object_mapping = []
    rw [show initMapping [(['a'], some ['b'])] = [(['a'], [['b']])] from rfl]
    rcases hx with hs | hb
    · obtain ⟨v, hv, hxv⟩ := gather_mem starName ['a'] ld ns body hmem hs
      exact subtract_single_erase ['a'] [['b']] (gatherImports body).object_mapping v hv
        (Or.inl hxv)
    · obtain ⟨v, hv, hxv⟩ := gather_mem ['b'] ['a'] ld ns body hmem hb
      refine subtract_single_erase ['a'] [['b']] (gatherImports body).object_mapping v hv
        (Or.inr ?_)
      intro o ho
      rcases List.mem_singleton.mp ho with rfl
      exact hxv
  rw [hmp, traverseBody_nil_mp]
  rfl

/-- C8: a module already containing a wildcard from-import of module
`a` is returned completely unchanged by a pass requesting
`(module a, object b)`: the wildcard entry deletes the module from the
pending mapping, so no statement is added, augmented or moved. -/
theorem addImports_wildcard_noop (md : PyModule) (ld : List LeadLine)
    (hmem : Stmt.mk ld (StmtKind.impFrom ['a'] FromNames.star) ∈ md.body) :
    addImports [(['a'], some ['b'])] md = .ok md := by
  obtain ⟨body⟩ := md
  exact addImports_ab_noop body ld FromNames.star hmem
    (Or.inl (List.mem_singleton.mpr rfl))

/-- Witness for C8 on the one-statement module `from a import *`. -/
theorem addImports_wildcard_noop_witness :
    addImports [(['a'], some ['b'])] ⟨[⟨[], StmtKind.impFrom ['a'] FromNames.star⟩]⟩ =
      .ok ⟨[⟨[], StmtKind.impFrom ['a'] FromNames.star⟩]⟩ :=
  addImports_wildcard_noop ⟨[⟨[], StmtKind.impFrom ['a'] FromNames.star⟩]⟩ []
    (List.mem_cons_self _ _)

theorem mem_sortNames (x : Chars) (l : List Chars) : x ∈ sortNames l ↔ x ∈ l :=
  (List.perm_insertionSort nameLe l).mem_iff

/-- C3: the pass for `(module a, object b)` is idempotent: whatever
module the first application produces, the second application subtracts
every request away against the imports now present and returns its input
unchanged. -/
theorem addImports_idempotent (md md2 : PyModule)
    (h : addImports [(['a'], some ['b'])] md = .ok md2) :
    addImports [(['a'], some ['b'])] md2 = .ok md2 := by
  obtain ⟨body⟩ := md
  rw [addImports_eq [(['a'], some ['b'])] ⟨body⟩ rfl] at h
  injection h with h2
  subst h2
  have hmpv : (pendingAfterVisit [(['a'], some ['b'])] body).2 =
      subtractObjects [(['a'], [['b']])] (gatherImports body).object_mapping := rfl
  rcases subtractObjects_single ['a'] (gatherImports body).object_mapping [['b']]
      (by simp) with h0 | ⟨w, hw, hwne, hwsub⟩
  · -- nothing was pending after the subtraction: the output is the input
    have hz : (pendingAfterVisit [(['a'], some ['b'])] body).2 = [] := hmpv.trans h0
    rw [show (pendingAfterVisit [(['a'], some ['b'])] body).1 = [] from rfl, hz,
      traverseBody_nil_mp]
    show addImports [(['a'], some ['b'])] ⟨body⟩ = _
    rw [addImports_eq [(['a'], some ['b'])] ⟨body⟩ rfl,
      show (pendingAfterVisit [(['a'], some ['b'])] body).1 = [] from rfl, hz,
      traverseBody_nil_mp]
  · have hbw : ['b'] ∈ w := by
      cases w with
      | nil => exact absurd rfl hwne
      | cons c cw =>
        have hc := hwsub (List.mem_cons_self c cw)
        rcases List.mem_singleton.mp hc with rfl
        exact List.mem_cons_self _ _
    have hmpv2 : (pendingAfterVisit [(['a'], some ['b'])] body).2 = [(['a'], w)] :=
      hmpv.trans hw
    rw [show (pendingAfterVisit [(['a'], some ['b'])] body).1 = [] from rfl, hmpv2]
    rcases traverseBody_single ['a'] w body with htr | ⟨htr1, ld2, l2, hmem2⟩
    · -- no existing from-import consumed the mapping: a new statement is emitted
      rw [htr]
      have hlm : leaveModule [] [(['a'], w)] body body =
          newFutureImports [(['a'], w)] ++ body.take (importLoc body) ++
            newModuleImports [] ++ newFromImports [(['a'], w)] ++
            insertEmptyLine (body.drop (importLoc body)) := by
        simp [leaveModule]
      have hnf : newFromImports [(['a'], w)] = [mkFromStmt ['a'] w] := rfl
      have hmemM : (⟨[], StmtKind.impFrom ['a'] (FromNames.names (sortNames w))⟩ : Stmt) ∈
          leaveModule [] [(['a'], w)] body body := by
        rw [hlm]
        have hin : (⟨[], StmtKind.impFrom ['a'] (FromNames.names (sortNames w))⟩ : Stmt) ∈
            newFromImports [(['a'], w)] := by
          rw [hnf]
          exact List.mem_cons_self _ _
        simp only [List.mem_append]
        tauto
      exact addImports_ab_noop (leaveModule [] [(['a'], w)] body body) []
        (FromNames.names (sortNames w)) hmemM
        (Or.inr ((mem_sortNames ['b'] w).mpr hbw))
    · -- an existing from-import was augmented in place
      rw [htr1]
      exact addImports_ab_noop (traverseBody [(['a'], w)] body).2 ld2
        (FromNames.names (w ++ l2)) hmem2
        (Or.inr (List.mem_append_left l2 hbw))

/-- Witness for C3: the empty module gains `from a import b` once; the
second application returns that result unchanged. -/
theorem addImports_idempotent_witness :
    addImports [(['a'], some ['b'])] ⟨[mkFromStmt ['a'] [['b']]]⟩ =
      .ok ⟨[mkFromStmt ['a'] [['b']]]⟩ :=
  addImports_idempotent ⟨[]⟩ ⟨[mkFromStmt ['a'] [['b']]]⟩ rfl

/-! ### Keys of the pending mapping -/

def keysOf (mp : List (Chars × List Chars)) : List Chars := mp.map Prod.fst

theorem keysOf_eraseKey (m : Chars) :
    ∀ mp, List.Sublist (keysOf (eraseKey m mp)) (keysOf mp) := by
  intro mp
  induction mp with
  | nil => exact List.Sublist.refl _
  | cons p rest ih =>
    obtain ⟨k, v⟩ := p
    simp only [eraseKey]
    split
    · exact List.Sublist.cons k (List.Sublist.refl _)
    · exact List.Sublist.cons₂ k ih

theorem keysOf_setKey (m : Chars) (v : List Chars) :
    ∀ mp, keysOf (setKey m v mp) = keysOf mp := by
  intro mp
  induction mp with
  | nil => rfl
  | cons p rest ih =>
    obtain ⟨k, cur⟩ := p
    simp only [setKey]
    split
    · rfl
    · show k :: keysOf (setKey m v rest) = k :: keysOf rest
      rw [ih]

theorem keysOf_subtractStep (mp : List (Chars × List Chars)) (e : Chars × List Chars) :
    List.Sublist (keysOf (subtractStep mp e)) (keysOf mp) := by
  rcases hl : lookupKey e.1 mp with _ | cur
  · simp only [subtractStep, hl]
    exact List.Sublist.refl _
  · simp only [subtractStep, hl]
    split
    · exact keysOf_eraseKey _ mp
    · split
      · exact keysOf_eraseKey _ mp
      · rw [keysOf_setKey]

theorem keysOf_subtractObjects (entries : List (Chars × List Chars)) :
    ∀ mp, List.Sublist (keysOf (subtractObjects mp entries)) (keysOf mp) := by
  induction entries with
  | nil => intro mp; exact List.Sublist.refl _
  | cons e rest ih =>
    intro mp
    rw [subtractObjects_cons]
    exact (ih (subtractStep mp e)).trans (keysOf_subtractStep mp e)

theorem keysOf_leaveImportFrom (mp : List (Chars × List Chars)) (s : Stmt) :
    List.Sublist (keysOf (leaveImportFrom mp s).1) (keysOf mp) := by
  unfold leaveImportFrom
  rcases s with ⟨ld, k⟩
  cases k with
  | imp m => exact List.Sublist.refl _
  | impFrom m ns =>
    cases ns with
    | star => exact List.Sublist.refl _
    | names l =>
      rcases hl : lookupKey m mp with _ | objs
      · simp only [hl]
        exact List.Sublist.refl _
      · simp only [hl]
        exact keysOf_eraseKey m mp
  | strictAssign => exact List.Sublist.refl _
  | other t => exact List.Sublist.refl _

theorem keysOf_traverseBody (body : List Stmt) :
    ∀ mp, List.Sublist (keysOf (traverseBody mp body).1) (keysOf mp) := by
  induction body with
  | nil => intro mp; exact List.Sublist.refl _
  | cons s rest ih =>
    intro mp
    rw [traverseBody_cons]
    exact (ih (leaveImportFrom mp s).1).trans (keysOf_leaveImportFrom mp s)

theorem keysOf_map_pair (f : Chars → List Chars) :
    ∀ l : List Chars, keysOf (l.map (fun m => (m, f m))) = l := by
  intro l
  induction l with
  | nil => rfl
  | cons a l ih =>
    show a :: keysOf (l.map _) = a :: l
    rw [ih]

theorem mem_keysOf_initMapping (reqs : List (Chars × Option Chars)) (x : Chars)
    (h : x ∈ keysOf (initMapping reqs)) : ∃ o, (x, some o) ∈ reqs := by
  rw [show keysOf (initMapping reqs) = sortNames (reqModulesWithObj reqs) from
    keysOf_map_pair _ _] at h
  rw [mem_sortNames] at h
  unfold reqModulesWithObj at h
  rw [List.mem_dedup, List.mem_filterMap] at h
  obtain ⟨r, hr, hf⟩ := h
  rcases r with ⟨m, o⟩
  cases o with
  | none => simp at hf
  | some o =>
    simp only [] at hf
    injection hf with hf1
    subst hf1
    exact ⟨o, hr⟩

/-! ### The strict-mode insertion index -/

theorem importLocAux_ge_one (body : List Stmt) :
    ∀ acc i, 1 ≤ acc → 1 ≤ importLocAux acc i body := by
  induction body with
  | nil => intro acc i h; exact h
  | cons s rest ih =>
    intro acc i h
    show 1 ≤ importLocAux (if isImportStmt s then i + 1 else acc) (i + 1) rest
    apply ih
    split
    · omega
    · exact h

theorem importLoc_strict (s0 : Stmt) (rest : List Stmt)
    (h : s0.kind = StmtKind.strictAssign) : 1 ≤ importLoc (s0 :: rest) := by
  unfold importLoc
  have hs : startsWithStrict (s0 :: rest) = true := by
    simp [startsWithStrict, h]
  rw [hs]
  exact importLocAux_ge_one (s0 :: rest) 1 0 (le_refl 1)

theorem leaveModule_pos (mi : List Chars) (mp : List (Chars × List Chars))
    (orig newB : List Stmt) (h : mi = [] ∧ mp = []) :
    leaveModule mi mp orig newB = newB := by
  unfold leaveModule
  rw [if_pos h]

theorem leaveModule_neg (mi : List Chars) (mp : List (Chars × List Chars))
    (orig newB : List Stmt) (h : ¬(mi = [] ∧ mp = [])) :
    leaveModule mi mp orig newB =
      newFutureImports mp ++ newB.take (importLoc orig) ++ newModuleImports mi ++
        newFromImports mp ++ insertEmptyLine (newB.drop (importLoc orig)) := by
  unfold leaveModule
  rw [if_neg h]

theorem leaveImportFrom_strict (s0 : Stmt) (h : s0.kind = StmtKind.strictAssign) :
    ∀ mp, leaveImportFrom mp s0 = (mp, s0) := by
  intro mp
  rcases s0 with ⟨ld0, k0⟩
  have h2 : k0 = StmtKind.strictAssign := h
  subst h2
  rfl

/-- C4 (amended): when the first statement is the strict-mode sentinel
and no request is for the `__future__` module, the output module still
has the sentinel as its first statement, so every inserted import lands
at index at least 1.  (A `__future__` request, by contrast, is emitted
above everything, including the sentinel — see the counterexample.) -/
theorem strict_first_preserved (reqs : List (Chars × Option Chars))
    (s0 : Stmt) (rest : List Stmt) (md2 : PyModule)
    (hstrict : s0.kind = StmtKind.strictAssign)
    (hnf : ∀ r ∈ reqs, r.1 ≠ futureName)
    (h : addImports reqs ⟨s0 :: rest⟩ = .ok md2) :
    md2.body.head? = some s0 := by
  have hbf : hasBareFuture reqs = false := by
    unfold hasBareFuture
    simp only [List.any_eq_false, decide_eq_true_eq]
    intro r hr hcon
    exact hnf r hr hcon.1
  rw [addImports_eq reqs ⟨s0 :: rest⟩ hbf] at h
  injection h with h2
  subst h2
  have hlf := leaveImportFrom_strict s0 hstrict
  have htr := traverseBody_cons_eq (pendingAfterVisit reqs (s0 :: rest)).2
    (pendingAfterVisit reqs (s0 :: rest)).2 s0 s0 rest
    (hlf (pendingAfterVisit reqs (s0 :: rest)).2)
  by_cases hc : (pendingAfterVisit reqs (s0 :: rest)).1 = [] ∧
      (traverseBody (pendingAfterVisit reqs (s0 :: rest)).2 (s0 :: rest)).1 = []
  · show (leaveModule _ _ _ _).head? = some s0
    rw [leaveModule_pos _ _ _ _ hc, htr]
    rfl
  · show (leaveModule _ _ _ _).head? = some s0
    rw [leaveModule_neg _ _ _ _ hc]
    have hfut : newFutureImports
        (traverseBody (pendingAfterVisit reqs (s0 :: rest)).2 (s0 :: rest)).1 = [] := by
      unfold newFutureImports
      rw [List.filter_eq_nil_iff.mpr ?_]
      · rfl
      · intro p hp
        simp only [decide_eq_true_eq]
        intro hpf
        have hk1 : p.1 ∈ keysOf
            (traverseBody (pendingAfterVisit reqs (s0 :: rest)).2 (s0 :: rest)).1 :=
          List.mem_map_of_mem Prod.fst hp
        have hk2 := (keysOf_traverseBody (s0 :: rest)
          (pendingAfterVisit reqs (s0 :: rest)).2).subset hk1
        have hk3 := (keysOf_subtractObjects (gatherImports (s0 :: rest)).object_mapping
          (initMapping reqs)).subset hk2
        obtain ⟨o, ho⟩ := mem_keysOf_initMapping reqs p.1 hk3
        exact hnf (p.1, some o) ho hpf
    rw [hfut, htr]
    have hpos : 1 ≤ importLoc (s0 :: rest) := importLoc_strict s0 rest hstrict
    rw [show importLoc (s0 :: rest) = (importLoc (s0 :: rest) - 1) + 1 from
      (Nat.succ_pred_eq_of_pos hpos).symm]
    rfl

/-- Witness for the amended C4: a strict-sentinel module plus one
ordinary object request keeps the sentinel at index 0. -/
theorem strict_first_preserved_witness :
    (⟨[⟨[], StmtKind.strictAssign⟩, mkFromStmt ['a'] [['b']]]⟩ : PyModule).body.head? =
      some ⟨[], StmtKind.strictAssign⟩ :=
  strict_first_preserved [(['a'], some ['b'])] ⟨[], StmtKind.strictAssign⟩ []
    ⟨[⟨[], StmtKind.strictAssign⟩, mkFromStmt ['a'] [['b']]]⟩ rfl (by decide) rfl

/-- C4 counterexample: a `__future__` object request against a module
whose only statement is the strict sentinel inserts the new
`from __future__ import x` at index 0 — above the sentinel. -/
theorem future_import_above_strict :
    addImports [(futureName, some ['x'])] ⟨[⟨[], StmtKind.strictAssign⟩]⟩ =
      .ok ⟨[⟨[], StmtKind.impFrom futureName (FromNames.names [['x']])⟩,
            ⟨[], StmtKind.strictAssign⟩]⟩ := rfl

/-! ### Order of the emitted from-import statements -/

/-- The module named by an import statement (empty for others). -/
def stmtModule (s : Stmt) : Chars :=
  match s.kind with
  | StmtKind.imp m => m
  | StmtKind.impFrom m _ => m
  | _ => []

/-- The object names of a from-import statement are sorted. -/
def stmtNamesSorted (s : Stmt) : Prop :=
  match s.kind with
  | StmtKind.impFrom _ (FromNames.names l) => List.Sorted nameLe l
  | _ => True

theorem sorted_keysOf_initMapping (reqs : List (Chars × Option Chars)) :
    List.Sorted nameLe (keysOf (initMapping reqs)) := by
  rw [show keysOf (initMapping reqs) = sortNames (reqModulesWithObj reqs) from
    keysOf_map_pair _ _]
  exact List.sorted_insertionSort nameLe _

theorem newFromImports_map_module (mp : List (Chars × List Chars)) :
    (newFromImports mp).map stmtModule =
      keysOf (mp.filter (fun p => decide (¬p.1 = futureName))) := by
  unfold newFromImports keysOf
  rw [List.map_map]
  rfl

/-- C6 (amended): among the statements newly emitted by `leave_Module`,
the non-future from-import statements have their object names sorted
within each statement, and the statements themselves appear in
lexicographic (sorted) order of their module names — not in first-seen
request order: the pending mapping is keyed by `sorted(from_imports)`
and only loses entries afterwards. -/
theorem newFromImports_sorted (reqs : List (Chars × Option Chars)) (md : PyModule) :
    List.Sorted nameLe
      ((newFromImports
        (traverseBody (pendingAfterVisit reqs md.body).2 md.body).1).map stmtModule) ∧
    ∀ s ∈ newFromImports
        (traverseBody (pendingAfterVisit reqs md.body).2 md.body).1,
      stmtNamesSorted s := by
  constructor
  · rw [newFromImports_map_module]
    have h0 : List.Sorted nameLe (keysOf (initMapping reqs)) :=
      sorted_keysOf_initMapping reqs
    have h1 : List.Sublist (keysOf ((pendingAfterVisit reqs md.body).2))
        (keysOf (initMapping reqs)) :=
      keysOf_subtractObjects (gatherImports md.body).object_mapping (initMapping reqs)
    have h2 : List.Sublist
        (keysOf (traverseBody (pendingAfterVisit reqs md.body).2 md.body).1)
        (keysOf ((pendingAfterVisit reqs md.body).2)) :=
      keysOf_traverseBody md.body (pendingAfterVisit reqs md.body).2
    have h3 : List.Sublist
        (keysOf (((traverseBody (pendingAfterVisit reqs md.body).2 md.body).1).filter
          (fun p => decide (¬p.1 = futureName))))
        (keysOf (traverseBody (pendingAfterVisit reqs md.body).2 md.body).1) :=
      (List.filter_sublist _).map Prod.fst
    exact h0.sublist (h3.trans (h2.trans h1))
  · intro s hs
    unfold newFromImports at hs
    rw [List.mem_map] at hs
    obtain ⟨p, hp, hps⟩ := hs
    rw [← hps]
    show List.Sorted nameLe (sortNames p.2)
    exact List.sorted_insertionSort nameLe p.2

/-- C6 counterexample: requests for modules `b` then `a` (first-seen
order `[b, a]`) emit the new from-import statements in sorted order
`[a, b]`, not first-seen order. -/
theorem fromImports_not_firstSeen :
    addImports [(['b'], some ['x']), (['a'], some ['y'])] ⟨[]⟩ =
      .ok ⟨[mkFromStmt ['a'] [['y']], mkFromStmt ['b'] [['x']]]⟩ ∧
    reqModulesWithObj [(['b'], some ['x']), (['a'], some ['y'])] = [['b'], ['a']] ∧
    (⟨[mkFromStmt ['a'] [['y']], mkFromStmt ['b'] [['x']]]⟩ : PyModule).body.map stmtModule ≠
      reqModulesWithObj [(['b'], some ['x']), (['a'], some ['y'])] := by
  refine ⟨rfl, rfl, by decide⟩

end LibCST
